import Mathlib

/-!
Verification of the chunking-and-aggregation pipeline of
src/audio-text-transcriber/audio_transcriber.py.

The development embeds the pipeline shallowly:

* text is `List Char`; Python's `str.strip()` is `strip` below;
* the segmentation arithmetic of the loop in
  `split_audio_and_transcribe_local` (lines 73-91) is `num_chunks` /
  `segmentsOf`;
* the per-chunk loop body (lines 87-119), together with the `except` /
  `finally` cleanup (lines 125-138), is `processChunks` /
  `split_audio_and_transcribe_local`, with the Whisper call abstracted as
  an oracle `tr : Nat → Except Unit (List Char)` giving the per-chunk
  outcome, and all Streamlit calls recorded as an explicit event trace;
* the button handler (lines 142-173) is `transcribe_button_handler`.
-/
/-! ## Text: Python string whitespace and strip -/
/-- Whitespace characters recognised by Python's `str.strip()`
(restricted to the ASCII ones; only the space character matters for the
proofs below). -/
def isWS (c : Char) : Bool :=
  c == ' ' || c == '\t' || c == '\n' || c == '\r' ||
    c == Char.ofNat 11 || c == Char.ofNat 12

/-- Remove leading whitespace (Python `str.lstrip()`). -/
def lstrip (s : List Char) : List Char := s.dropWhile isWS

/-- Remove trailing whitespace (Python `str.rstrip()`). -/
def rstrip (s : List Char) : List Char := (s.reverse.dropWhile isWS).reverse

/-- Remove leading and trailing whitespace (Python `str.strip()`). -/
def strip (s : List Char) : List Char := lstrip (rstrip s)

/-! ## Aggregation

Lines 110 and 123 of the source: the loop accumulates
`full_transcription_text += chunk_text + " "` and the function returns
`full_transcription_text.strip()`. -/

/-- The concatenation produced by repeatedly appending `chunk_text + " "`. -/
def concatWithTrailingSpace : List (List Char) → List Char
  | [] => []
  | t :: rest => t ++ [' '] ++ concatWithTrailingSpace rest

/-- Aggregation as the source performs it: fold the `+= chunk_text + " "`
updates over the fragments in order, then strip the result (lines 110, 123). -/
def aggregate (fragments : List (List Char)) : List Char :=
  strip (fragments.foldl (fun full_transcription_text chunk_text =>
    full_transcription_text ++ chunk_text ++ [' ']) [])

/-- Modelled from the spec: join the fragment texts with a single-space
separator (the Aggregator contract of the spec, used only for comparison
with `aggregate`). -/
def joinWithSpace : List (List Char) → List Char
  | [] => []
  | [t] => t
  | t :: rest => t ++ [' '] ++ joinWithSpace rest

/-- Modelled from the spec: the Aggregator contract, join with a
single-space separator then trim leading/trailing whitespace. -/
def specAggregate (fragments : List (List Char)) : List Char :=
  strip (joinWithSpace fragments)

/-! ## Segmentation (lines 54-56, 73-91) -/

def CHUNK_LENGTH_MINUTES : Nat := 10

def CHUNK_LENGTH_MS : Nat := CHUNK_LENGTH_MINUTES * 60 * 1000

/-- Ceiling division on naturals, the value of
`math.ceil(total_length_ms / CHUNK_LENGTH_MS)` on integer inputs. -/
def ceilDivNat (a b : Nat) : Nat := (a + b - 1) / b

/-- Number of chunks chosen at lines 73-79: ceiling division when the
audio is longer than one chunk, otherwise a single chunk. -/
def num_chunks (total_length_ms chunk_length_ms : Nat) : Nat :=
  if chunk_length_ms < total_length_ms then
    ceilDivNat total_length_ms chunk_length_ms
  else 1

/-- A half-open segment `[start_ms, end_ms)` of the audio. -/
structure Segment where
  start_ms : Nat
  end_ms : Nat
  deriving Repr, DecidableEq

/-- The segments computed by the loop at lines 87-91:
`start_ms = i * CHUNK_LENGTH_MS`,
`end_ms = min ((i + 1) * CHUNK_LENGTH_MS) total_length_ms`. -/
def segmentsOf (total_length_ms chunk_length_ms : Nat) : List Segment :=
  (List.range (num_chunks total_length_ms chunk_length_ms)).map fun i =>
    { start_ms := i * chunk_length_ms,
      end_ms := min ((i + 1) * chunk_length_ms) total_length_ms }

/-- Conclusion of claim C1: the segments are contiguous, non-overlapping,
ordered by index, well-formed, and their union is exactly
`[0, total_length_ms)`. -/
def SegmenterPartitionSpec (T c : Nat) : Prop :=
  (∀ (i : Nat) (si sj : Segment), (segmentsOf T c)[i]? = some si →
      (segmentsOf T c)[i + 1]? = some sj → si.end_ms = sj.start_ms) ∧
  (∀ (i j : Nat) (si sj : Segment), i < j → (segmentsOf T c)[i]? = some si →
      (segmentsOf T c)[j]? = some sj →
      si.start_ms < sj.start_ms ∧ si.end_ms ≤ sj.start_ms) ∧
  (∀ s ∈ segmentsOf T c, s.start_ms ≤ s.end_ms) ∧
  (∀ t, t < T ↔ ∃ s ∈ segmentsOf T c, s.start_ms ≤ t ∧ t < s.end_ms)

/-- Conclusion of claim C4: for audio longer than one chunk the loop
produces exactly `ceil(total/chunk)` segments, each of length exactly
`chunk_length_ms` except the last, whose end is clipped to
`total_length_ms`. -/
def ChunkCountSpec (T c : Nat) : Prop :=
  (segmentsOf T c).length = ceilDivNat T c ∧
  (∀ (i : Nat) (si : Segment), (segmentsOf T c)[i]? = some si →
      i + 1 < ceilDivNat T c → si.end_ms = si.start_ms + c) ∧
  (segmentsOf T c)[ceilDivNat T c - 1]? =
    some { start_ms := (ceilDivNat T c - 1) * c, end_ms := T }

/-- Conclusion of claim C9: no produced segment is zero-length unless the
audio itself is empty, in which case the loop produces the single
zero-length segment `[0, 0)`. -/
def NoZeroLengthSpec (T c : Nat) : Prop :=
  (0 < T → ∀ s ∈ segmentsOf T c, s.start_ms < s.end_ms) ∧
  segmentsOf 0 c = [{ start_ms := 0, end_ms := 0 }]

/-! ## The transcription pipeline as a trace of effects

`split_audio_and_transcribe_local` (lines 61-138) is embedded with the
Whisper call abstracted as an oracle `tr : Nat → Except Unit (List Char)`
(the outcome of transcribing chunk number `i`, whose time range is the
`i`-th entry of `segmentsOf`), and every observable effect (Streamlit
notification, temp-file creation and removal, transcription call)
recorded in order in a trace of events. -/

inductive Event where
  | infoShown
  | progressInitShown
  | chunkCreated (i : Nat)
  | chunkStatusShown (index total : Nat)
  | progressShown (index total : Nat)
  | transcribeCalled (i : Nat)
  | cumulativeDisplayed (i : Nat) (text : List Char)
  | progressCleared
  | chunkStatusCleared
  | errorShown
  | warningShown
  | chunkRemoved (i : Nat)
  deriving Repr, DecidableEq

/-- Mutable state of the loop at lines 64-65: the accumulated text and the
list of temporary chunk files (identified by chunk index). -/
structure LoopState where
  full_transcription_text : List Char
  temp_chunk_files : List Nat
  events : List Event
  deriving Repr, DecidableEq

/-- The events of one iteration of lines 94-106 up to the transcription
call: export the chunk (lines 94-97), show the chunk status (line 100),
update the progress bar (line 102), call the model (line 106). -/
def exportBlock (i n : Nat) : List Event :=
  [Event.chunkCreated i, Event.chunkStatusShown (i + 1) n,
   Event.progressShown (i + 1) n, Event.transcribeCalled i]

/-- The `for i in range(num_chunks)` loop of lines 87-119, processing
chunks `i, i+1, ...` while `rem` iterations remain.  Returns the final
state and whether the transcription call raised. -/
def processChunks (tr : Nat → Except Unit (List Char)) (n : Nat) :
    Nat → Nat → LoopState → LoopState × Bool
  | _, 0, s => (s, false)
  | i, rem + 1, s =>
    let s1 : LoopState :=
      { s with
        temp_chunk_files := s.temp_chunk_files ++ [i],
        events := s.events ++ exportBlock i n }
    match tr i with
    | Except.error _ => (s1, true)
    | Except.ok chunk_text =>
      let s2 : LoopState :=
        { s1 with full_transcription_text :=
            s1.full_transcription_text ++ chunk_text ++ [' '] }
      let s3 : LoopState :=
        { s2 with events := s2.events ++
            [Event.cumulativeDisplayed i s2.full_transcription_text] }
      processChunks tr n (i + 1) rem s3

/-- State after the initialisation at lines 64-85: empty accumulated text,
no temporary chunk files, the two `st.info` notifications and the initial
progress bar recorded. -/
def s0State : LoopState :=
  { full_transcription_text := [], temp_chunk_files := [],
    events := [Event.infoShown, Event.infoShown, Event.progressInitShown] }

/-- The whole of `split_audio_and_transcribe_local` (lines 61-138):
initial notifications (lines 71-85), the chunk loop, then either the
`except` branch (lines 125-133: error and warning notifications, removal
of every temporary chunk file, return `None`) or the normal return path
(lines 121-123 plus the `finally` cleanup at lines 134-138: clear the
progress widgets, return the stripped text, remove every temporary chunk
file).  Returns the Python return value and the event trace. -/
def split_audio_and_transcribe_local (tr : Nat → Except Unit (List Char))
    (total_length_ms chunk_length_ms : Nat) : Option (List Char) × List Event :=
  let n := num_chunks total_length_ms chunk_length_ms
  let r := processChunks tr n 0 n s0State
  if r.2 then
    (none, r.1.events ++ [Event.errorShown, Event.warningShown]
      ++ r.1.temp_chunk_files.map Event.chunkRemoved)
  else
    (some (strip r.1.full_transcription_text),
      r.1.events ++ [Event.progressCleared, Event.chunkStatusCleared]
        ++ r.1.temp_chunk_files.map Event.chunkRemoved)

/-! ## Disk state derived from a trace -/

/-- Effect of one event on the set of chunk files existing on disk. -/
def stepDisk (live : List Nat) : Event → List Nat
  | Event.chunkCreated i => live ++ [i]
  | Event.chunkRemoved i => live.erase i
  | _ => live

/-- Chunk files existing on disk after a trace of events. -/
def liveChunks (evs : List Event) : List Nat := evs.foldl stepDisk []

/-- Claim C3 as a predicate on a trace: at every point at most one chunk
artifact exists on disk. -/
def chunkArtifactsNeverAccumulate (evs : List Event) : Prop :=
  ∀ k, k ≤ evs.length → (liveChunks (List.take k evs)).length ≤ 1

/-- The chunk indices `[i, i + m)`, in order. -/
def idxRange : Nat → Nat → List Nat
  | _, 0 => []
  | i, m + 1 => i :: idxRange (i + 1) m

/-- The per-chunk texts the oracle returns for chunks `[i, i + rem)`, or
`none` if some call in that range fails.  Mentions no events: it depends
only on the oracle outcomes. -/
def collectTexts (tr : Nat → Except Unit (List Char)) :
    Nat → Nat → Option (List (List Char))
  | _, 0 => some []
  | i, rem + 1 =>
    match tr i with
    | Except.error _ => none
    | Except.ok t => (collectTexts tr (i + 1) rem).map (t :: ·)

/-! ## Progress-event predicates for claim C8 -/

/-- Does this event carry an `index`/`total`/status payload for segment `i`
(the events of lines 100-103)? -/
def isProgressEventFor (i : Nat) : Event → Bool
  | Event.chunkStatusShown j _ => j == i + 1
  | Event.progressShown j _ => j == i + 1
  | _ => false

/-- Claim C8 as a predicate on a trace: every transcription call is
followed, strictly later in the trace, by a progress event for the same
segment. -/
def progressFollowsTranscriptionB (evs : List Event) : Bool :=
  (List.range evs.length).all fun p =>
    match evs[p]? with
    | some (Event.transcribeCalled i) =>
      (List.range evs.length).any fun q =>
        decide (p < q) && (evs[q]?.map (isProgressEventFor i)).getD false
    | _ => true

/-! ## The button handler (lines 142-173) -/

inductive HEvent where
  | primaryCreated
  | infoShown
  | pipelineEvent (e : Event)
  | successShown
  | finalTranscriptShown (text : List Char)
  | errorShown
  | warningShown
  | primaryRemoved
  deriving Repr, DecidableEq

/-- Behaviour of the call at lines 155-156 as seen by the handler: either
the pipeline returns a value (it catches its own exceptions), or an
unexpected exception escapes. -/
inductive PipelineBehavior where
  | returns (r : Option (List Char)) (pipeEvents : List Event)
  | raises (pipeEvents : List Event)

/-- The branch of the button handler with a file uploaded (lines 145-173):
save the upload to the primary temporary file, `try` the pipeline, show
the success notification and the final transcript only when
`if transcription_result:` is truthy, show error and warning on an
exception, and in all cases remove the primary temporary file in the
`finally` block. -/
def transcribe_button_handler : PipelineBehavior → List HEvent
  | PipelineBehavior.returns r pipeEvents =>
    [HEvent.primaryCreated, HEvent.infoShown]
      ++ pipeEvents.map HEvent.pipelineEvent
      ++ (match r with
          | some t => if t.isEmpty then [] else
              [HEvent.successShown, HEvent.finalTranscriptShown t]
          | none => [])
      ++ [HEvent.primaryRemoved]
  | PipelineBehavior.raises pipeEvents =>
    [HEvent.primaryCreated, HEvent.infoShown]
      ++ pipeEvents.map HEvent.pipelineEvent
      ++ [HEvent.errorShown, HEvent.warningShown]
      ++ [HEvent.primaryRemoved]

/-- Oracle that transcribes every chunk successfully. -/
def trAllOk : Nat → Except Unit (List Char) := fun _ => Except.ok ['a']

/-- Oracle whose transcription of chunk 1 fails and succeeds elsewhere. -/
def trFailAt1 : Nat → Except Unit (List Char) := fun i =>
  if i == 1 then Except.error () else Except.ok ['a']

/-- Conclusion of claim C2: when transcription of chunk `k` fails (and all
earlier chunks succeeded), the pipeline returns `None` (the partial text
is discarded), shows the error, never exports or transcribes a chunk past
`k`, and still removes every temporary chunk file it created. -/
def FailFastSpec (tr : Nat → Except Unit (List Char)) (T c k : Nat) : Prop :=
  (split_audio_and_transcribe_local tr T c).1 = none ∧
  Event.errorShown ∈ (split_audio_and_transcribe_local tr T c).2 ∧
  (∀ j, Event.transcribeCalled j ∈ (split_audio_and_transcribe_local tr T c).2
    → j ≤ k) ∧
  (∀ j, Event.chunkCreated j ∈ (split_audio_and_transcribe_local tr T c).2
    → j ≤ k) ∧
  liveChunks (split_audio_and_transcribe_local tr T c).2 = []

/-- Conclusion of the amended claim C8: whenever the pipeline has called
the model on segment `i`, the trace contains the contiguous block
`exportBlock i`: the chunk export, then the status and progress events
carrying `index = i + 1` and `total = num_chunks`, then the transcription
call — so the progress events for a segment are emitted immediately
before its transcription call; and the returned transcript is a function
of the oracle outcomes alone, unaffected by the event stream. -/
def ProgressPrecedesSpec (tr : Nat → Except Unit (List Char)) (T c : Nat) : Prop :=
  (∀ i, Event.transcribeCalled i ∈ (split_audio_and_transcribe_local tr T c).2 →
    ∃ pre post, (split_audio_and_transcribe_local tr T c).2
      = pre ++ exportBlock i (num_chunks T c) ++ post) ∧
  (split_audio_and_transcribe_local tr T c).1
    = (collectTexts tr 0 (num_chunks T c)).map aggregate

/-! ## Lemmas and claim theorems -/

lemma rstrip_append_space (x : List Char) : rstrip (x ++ [' ']) = rstrip x := by
  have h : isWS ' ' = true := rfl
  simp [rstrip, List.dropWhile, h]

lemma strip_append_space (x : List Char) : strip (x ++ [' ']) = strip x := by
  simp [strip, rstrip_append_space]

lemma foldl_append_space (ts : List (List Char)) (acc : List Char) :
    ts.foldl (fun full_transcription_text chunk_text =>
        full_transcription_text ++ chunk_text ++ [' ']) acc
      = acc ++ concatWithTrailingSpace ts := by
  induction ts generalizing acc with
  | nil => simp [concatWithTrailingSpace]
  | cons t rest ih =>
    rw [List.foldl_cons, ih]
    simp [concatWithTrailingSpace, List.append_assoc]

lemma concatWithTrailingSpace_eq_join (ts : List (List Char)) (h : ts ≠ []) :
    concatWithTrailingSpace ts = joinWithSpace ts ++ [' '] := by
  induction ts with
  | nil => exact absurd rfl h
  | cons t rest ih =>
    cases rest with
    | nil => simp [concatWithTrailingSpace, joinWithSpace]
    | cons t2 rest2 =>
      rw [show concatWithTrailingSpace (t :: t2 :: rest2)
            = t ++ [' '] ++ concatWithTrailingSpace (t2 :: rest2) from rfl,
        ih (by simp),
        show joinWithSpace (t :: t2 :: rest2)
            = t ++ [' '] ++ joinWithSpace (t2 :: rest2) from rfl]
      simp [List.append_assoc]

/-! Arithmetic facts about `ceilDivNat` and `num_chunks`. -/

lemma le_ceilDivNat_mul (T c : Nat) (hc : 0 < c) : T ≤ ceilDivNat T c * c := by
  by_contra hlt
  push_neg at hlt
  have h2 : ceilDivNat T c + 1 ≤ ceilDivNat T c := by
    have h3 : (ceilDivNat T c + 1) * c ≤ T + c - 1 := by
      have h4 : (ceilDivNat T c + 1) * c = ceilDivNat T c * c + c := by ring
      rw [h4]
      set m := ceilDivNat T c * c with hm
      omega
    exact (Nat.le_div_iff_mul_le hc).mpr h3
  omega

lemma ceilDivNat_pred_mul_lt (T c : Nat) (hc : 0 < c) (hT : 0 < T) :
    (ceilDivNat T c - 1) * c < T := by
  have hq : ceilDivNat T c * c ≤ T + c - 1 := by
    have h := Nat.div_mul_le_self (T + c - 1) c
    simpa [ceilDivNat] using h
  rcases Nat.eq_zero_or_pos (ceilDivNat T c) with h0 | hpos
  · simpa [h0] using hT
  · have h4 : ceilDivNat T c * c = (ceilDivNat T c - 1) * c + c := by
      have h5 : ceilDivNat T c - 1 + 1 = ceilDivNat T c :=
        Nat.succ_pred_eq_of_pos hpos
      calc ceilDivNat T c * c = (ceilDivNat T c - 1 + 1) * c := by rw [h5]
        _ = (ceilDivNat T c - 1) * c + c := by ring
    rw [h4] at hq
    set m := (ceilDivNat T c - 1) * c with hm
    omega

lemma num_chunks_pos (T c : Nat) (hc : 0 < c) : 0 < num_chunks T c := by
  unfold num_chunks
  split
  · next h =>
    have h1 : (1 : Nat) * c ≤ T + c - 1 := by omega
    have h2 := (Nat.le_div_iff_mul_le hc).mpr h1
    simpa [ceilDivNat] using h2
  · exact Nat.one_pos

lemma total_le_num_chunks_mul (T c : Nat) (hc : 0 < c) :
    T ≤ num_chunks T c * c := by
  unfold num_chunks
  split
  · exact le_ceilDivNat_mul T c hc
  · next h => omega

lemma start_lt_total (T c : Nat) (hc : 0 < c) (hT : 0 < T) :
    ∀ i, i < num_chunks T c → i * c < T := by
  intro i hi
  unfold num_chunks at hi
  by_cases h : c < T
  · rw [if_pos h] at hi
    have h1 : i ≤ ceilDivNat T c - 1 := by omega
    have h2 : i * c ≤ (ceilDivNat T c - 1) * c :=
      Nat.mul_le_mul_right c h1
    exact lt_of_le_of_lt h2 (ceilDivNat_pred_mul_lt T c hc hT)
  · rw [if_neg h] at hi
    have h1 : i = 0 := by omega
    simpa [h1] using hT

lemma succ_mul_le_total (T c : Nat) (hc : 0 < c) :
    ∀ i, i + 1 < num_chunks T c → (i + 1) * c ≤ T := by
  intro i hi
  have hcT : c < T := by
    by_contra h
    have : num_chunks T c = 1 := by unfold num_chunks; rw [if_neg h]
    omega
  have hT : 0 < T := lt_of_le_of_lt (Nat.zero_le c) hcT
  exact le_of_lt (start_lt_total T c hc hT (i + 1) hi)

/-! ## The segment list in closed form -/

lemma range_one_eq : List.range 1 = [0] := by decide

lemma segmentsOf_getElem? (T c i : Nat) :
    (segmentsOf T c)[i]? =
      if i < num_chunks T c then
        some { start_ms := i * c, end_ms := min ((i + 1) * c) T }
      else none := by
  by_cases h : i < num_chunks T c
  · simp [segmentsOf, List.getElem?_map, List.getElem?_range, h]
  · rw [if_neg h]
    apply List.getElem?_eq_none
    simp [segmentsOf]
    omega

lemma segmentsOf_length (T c : Nat) :
    (segmentsOf T c).length = num_chunks T c := by
  simp [segmentsOf]

lemma mem_segmentsOf (T c : Nat) (s : Segment) :
    s ∈ segmentsOf T c ↔ ∃ i, i < num_chunks T c ∧
      s = { start_ms := i * c, end_ms := min ((i + 1) * c) T } := by
  simp only [segmentsOf, List.mem_map, List.mem_range]
  constructor
  · rintro ⟨i, hi, rfl⟩
    exact ⟨i, hi, rfl⟩
  · rintro ⟨i, hi, rfl⟩
    exact ⟨i, hi, rfl⟩

/-- The union of the produced segments is exactly `[0, total_length_ms)`. -/
lemma segmentsOf_cover (T c : Nat) (hc : 0 < c) (t : Nat) :
    t < T ↔ ∃ s ∈ segmentsOf T c, s.start_ms ≤ t ∧ t < s.end_ms := by
  constructor
  · intro ht
    refine ⟨{ start_ms := t / c * c, end_ms := min ((t / c + 1) * c) T },
      (mem_segmentsOf T c _).mpr ⟨t / c, ?_, rfl⟩, ?_, ?_⟩
    · have h1 : t < num_chunks T c * c :=
        lt_of_lt_of_le ht (total_le_num_chunks_mul T c hc)
      exact (Nat.div_lt_iff_lt_mul hc).mpr h1
    · exact Nat.div_mul_le_self t c
    · refine lt_min ?_ ht
      have h2 : t / c < t / c + 1 := Nat.lt_succ_self _
      exact (Nat.div_lt_iff_lt_mul hc).mp h2
  · rintro ⟨s, hs, hst, hts⟩
    rcases (mem_segmentsOf T c s).mp hs with ⟨i, hi, rfl⟩
    exact lt_of_lt_of_le hts (min_le_right _ _)

/-- C1: for every `total_length_ms ≥ 0` and `chunk_length_ms > 0`, the
segments produced by the loop at lines 73-91 are contiguous,
non-overlapping, ordered by index, and their union is `[0, total_length_ms)`. -/
theorem segmenter_partition (T c : Nat) (hc : 0 < c) :
    SegmenterPartitionSpec T c := by
  refine ⟨?_, ?_, ?_, segmentsOf_cover T c hc⟩
  · intro i si sj hsi hsj
    rw [segmentsOf_getElem?] at hsi hsj
    by_cases hj : i + 1 < num_chunks T c
    · have hi : i < num_chunks T c := by omega
      rw [if_pos hi] at hsi
      rw [if_pos hj] at hsj
      cases hsi; cases hsj
      have h1 : (i + 1) * c ≤ T := succ_mul_le_total T c hc i hj
      simp [Nat.min_eq_left h1]
    · rw [if_neg hj] at hsj
      cases hsj
  · intro i j si sj hij hsi hsj
    rw [segmentsOf_getElem?] at hsi hsj
    by_cases hjn : j < num_chunks T c
    · have hin : i < num_chunks T c := by omega
      rw [if_pos hin] at hsi
      rw [if_pos hjn] at hsj
      cases hsi; cases hsj
      constructor
      · exact Nat.mul_lt_mul_of_lt_of_le hij (le_refl c) hc
      · calc min ((i + 1) * c) T ≤ (i + 1) * c := min_le_left _ _
          _ ≤ j * c := Nat.mul_le_mul_right c hij
    · rw [if_neg hjn] at hsj
      cases hsj
  · intro s hs
    rcases (mem_segmentsOf T c s).mp hs with ⟨i, hi, rfl⟩
    simp only []
    refine le_min (Nat.mul_le_mul_right c (Nat.le_succ i)) ?_
    rcases Nat.eq_zero_or_pos T with hT | hT
    · subst hT
      have h1 : num_chunks 0 c = 1 := by
        unfold num_chunks
        rw [if_neg (by omega)]
      have h2 : i = 0 := by omega
      simp [h2]
    · exact le_of_lt (start_lt_total T c hc hT i hi)

theorem segmenter_partition_witness :
    0 < 600000 ∧ SegmenterPartitionSpec 1500000 600000 :=
  ⟨by decide, segmenter_partition 1500000 600000 (by decide)⟩

/-- C4: chunk count and chunk lengths for `total_length_ms > chunk_length_ms`,
with the spec scenario 1500000 / 600000 ms evaluated concretely. -/
theorem segmenter_chunk_count (T c : Nat) (hc : 0 < c) (hT : c < T) :
    ChunkCountSpec T c ∧
      segmentsOf 1500000 600000 =
        [{ start_ms := 0, end_ms := 600000 },
         { start_ms := 600000, end_ms := 1200000 },
         { start_ms := 1200000, end_ms := 1500000 }] := by
  have hn : num_chunks T c = ceilDivNat T c := by
    unfold num_chunks; rw [if_pos hT]
  refine ⟨⟨?_, ?_, ?_⟩, by decide⟩
  · rw [segmentsOf_length, hn]
  · intro i si hsi hlast
    rw [segmentsOf_getElem?, hn] at hsi
    rw [if_pos (by omega)] at hsi
    cases hsi
    have h1 : (i + 1) * c ≤ T := by
      apply succ_mul_le_total T c hc
      omega
    show min ((i + 1) * c) T = i * c + c
    rw [Nat.min_eq_left h1, Nat.succ_mul]
  · have hpos : 0 < num_chunks T c := num_chunks_pos T c hc
    rw [segmentsOf_getElem?, hn]
    rw [if_pos (by omega)]
    have h2 : ceilDivNat T c - 1 + 1 = ceilDivNat T c := by omega
    rw [h2]
    have h3 : T ≤ ceilDivNat T c * c := le_ceilDivNat_mul T c hc
    simp [Nat.min_eq_right h3]

theorem segmenter_chunk_count_witness :
    (0 < 600000 ∧ 600000 < 1500000) ∧
      (ChunkCountSpec 1500000 600000 ∧
        segmentsOf 1500000 600000 =
          [{ start_ms := 0, end_ms := 600000 },
           { start_ms := 600000, end_ms := 1200000 },
           { start_ms := 1200000, end_ms := 1500000 }]) :=
  ⟨by decide, segmenter_chunk_count 1500000 600000 (by decide) (by decide)⟩

/-- C5: when the audio fits in a single chunk
(`total_length_ms ≤ chunk_length_ms`) the loop produces exactly one
segment covering `[0, total_length_ms)`. -/
theorem segmenter_single_chunk (T c : Nat) (hTc : T ≤ c) :
    segmentsOf T c = [{ start_ms := 0, end_ms := T }] := by
  have h1 : num_chunks T c = 1 := by
    unfold num_chunks; rw [if_neg (by omega)]
  simp [segmentsOf, h1, range_one_eq, Nat.min_eq_right hTc]

theorem segmenter_single_chunk_witness :
    segmentsOf 600000 600000 = [{ start_ms := 0, end_ms := 600000 }] :=
  segmenter_single_chunk 600000 600000 (by decide)

/-- C9: segments are never zero-length for nonempty audio, and empty audio
yields exactly one zero-length segment rather than an error. -/
theorem segmenter_zero_length (T c : Nat) (hc : 0 < c) :
    NoZeroLengthSpec T c := by
  constructor
  · intro hT s hs
    rcases (mem_segmentsOf T c s).mp hs with ⟨i, hi, rfl⟩
    simp only []
    exact lt_min (Nat.mul_lt_mul_of_lt_of_le (Nat.lt_succ_self i) (le_refl c) hc)
      (start_lt_total T c hc hT i hi)
  · have h1 : num_chunks 0 c = 1 := by
      unfold num_chunks; rw [if_neg (by omega)]
    simp [segmentsOf, h1, range_one_eq]

theorem segmenter_zero_length_witness :
    0 < 600000 ∧ NoZeroLengthSpec 1500000 600000 :=
  ⟨by decide, segmenter_zero_length 1500000 600000 (by decide)⟩

/-- C6: the source's aggregation (append `chunk_text + " "` per fragment,
then strip) equals the spec's Aggregator contract (join with a
single-space separator, then trim), and aggregating `Hello`, `world`
yields exactly `Hello world`. -/
theorem aggregate_eq_join_trim :
    (∀ fragments, aggregate fragments = specAggregate fragments) ∧
    aggregate [['H', 'e', 'l', 'l', 'o'], ['w', 'o', 'r', 'l', 'd']]
      = ['H', 'e', 'l', 'l', 'o', ' ', 'w', 'o', 'r', 'l', 'd'] := by
  constructor
  · intro ts
    cases ts with
    | nil => rfl
    | cons t rest =>
      unfold aggregate specAggregate
      rw [foldl_append_space, concatWithTrailingSpace_eq_join _ (by simp),
        List.nil_append, strip_append_space]
  · decide

/-! ## Step equations for the loop -/

lemma processChunks_zero (tr : Nat → Except Unit (List Char)) (n i : Nat)
    (s : LoopState) : processChunks tr n i 0 s = (s, false) := rfl

lemma processChunks_error (tr : Nat → Except Unit (List Char)) (n i rem : Nat)
    (s : LoopState) (e : Unit) (htr : tr i = Except.error e) :
    processChunks tr n i (rem + 1) s =
      ({ s with temp_chunk_files := s.temp_chunk_files ++ [i],
                events := s.events ++ exportBlock i n }, true) := by
  simp [processChunks, htr]

lemma processChunks_ok (tr : Nat → Except Unit (List Char)) (n i rem : Nat)
    (s : LoopState) (t : List Char) (htr : tr i = Except.ok t) :
    processChunks tr n i (rem + 1) s =
      processChunks tr n (i + 1) rem
        { full_transcription_text := s.full_transcription_text ++ t ++ [' '],
          temp_chunk_files := s.temp_chunk_files ++ [i],
          events := s.events ++ exportBlock i n ++
            [Event.cumulativeDisplayed i
              (s.full_transcription_text ++ t ++ [' '])] } := by
  simp [processChunks, htr]

/-! ## Facts about `idxRange`, `stepDisk` and `liveChunks` -/

lemma mem_idxRange (j : Nat) : ∀ i m : Nat, j ∈ idxRange i m ↔ i ≤ j ∧ j < i + m := by
  intro i m
  induction m generalizing i with
  | zero => simp [idxRange]
  | succ m ih =>
    simp only [idxRange, List.mem_cons, ih]
    omega

lemma idxRange_nodup : ∀ i m : Nat, (idxRange i m).Nodup := by
  intro i m
  induction m generalizing i with
  | zero => simp [idxRange]
  | succ m ih =>
    simp only [idxRange, List.nodup_cons]
    refine ⟨?_, ih (i + 1)⟩
    rw [mem_idxRange]
    omega

lemma foldl_stepDisk_exportBlock (d : List Nat) (i n : Nat) :
    List.foldl stepDisk d (exportBlock i n) = d ++ [i] := rfl

lemma foldl_stepDisk_erase_self :
    ∀ (l : List Nat) (pre : List Nat), (∀ a ∈ l, a ∉ pre) → l.Nodup →
      List.foldl stepDisk (pre ++ l) (l.map Event.chunkRemoved) = pre := by
  intro l
  induction l with
  | nil => intro pre _ _; simp
  | cons a t ih =>
    intro pre hpre hnd
    simp only [List.map_cons, List.foldl_cons]
    have h1 : stepDisk (pre ++ a :: t) (Event.chunkRemoved a) = pre ++ t := by
      show (pre ++ a :: t).erase a = pre ++ t
      rw [List.erase_append_right _ (hpre a (by simp))]
      simp
    rw [h1]
    refine ih pre (fun b hb => hpre b (by simp [hb])) ?_
    exact (List.nodup_cons.mp hnd).2

/-- Main invariant of the chunk loop: the loop only appends events, the
temporary chunk files created are exactly the processed indices in order,
the disk effect of the new events is to add exactly those files, and
every export or transcription event concerns a processed index. -/
lemma processChunks_spec (tr : Nat → Except Unit (List Char)) (n : Nat) :
    ∀ (rem i : Nat) (s : LoopState), ∃ (Δ : List Event) (m : Nat),
      ((processChunks tr n i rem s).1).events = s.events ++ Δ ∧
      ((processChunks tr n i rem s).1).temp_chunk_files
        = s.temp_chunk_files ++ idxRange i m ∧
      m ≤ rem ∧
      (∀ d, List.foldl stepDisk d Δ = d ++ idxRange i m) ∧
      (∀ j, Event.chunkCreated j ∈ Δ → i ≤ j ∧ j < i + m) ∧
      (∀ j, Event.transcribeCalled j ∈ Δ → i ≤ j ∧ j < i + m) := by
  intro rem
  induction rem with
  | zero =>
    intro i s
    refine ⟨[], 0, ?_, ?_, le_refl 0, ?_, ?_, ?_⟩
    · simp [processChunks_zero]
    · simp [processChunks_zero, idxRange]
    · intro d; simp [idxRange]
    · simp
    · simp
  | succ rem ih =>
    intro i s
    cases htr : tr i with
    | error e =>
      rw [processChunks_error tr n i rem s e htr]
      refine ⟨exportBlock i n, 1, rfl, ?_, by omega, ?_, ?_, ?_⟩
      · simp [idxRange]
      · intro d
        rw [foldl_stepDisk_exportBlock]
        simp [idxRange]
      · intro j hj
        simp [exportBlock] at hj
        omega
      · intro j hj
        simp [exportBlock] at hj
        omega
    | ok t =>
      rw [processChunks_ok tr n i rem s t htr]
      obtain ⟨Δ, m, he, hf, hm, hd, hcb, htb⟩ := ih (i + 1)
        { full_transcription_text := s.full_transcription_text ++ t ++ [' '],
          temp_chunk_files := s.temp_chunk_files ++ [i],
          events := s.events ++ exportBlock i n ++
            [Event.cumulativeDisplayed i
              (s.full_transcription_text ++ t ++ [' '])] }
      refine ⟨exportBlock i n ++
          [Event.cumulativeDisplayed i
            (s.full_transcription_text ++ t ++ [' '])] ++ Δ,
        m + 1, ?_, ?_, by omega, ?_, ?_, ?_⟩
      · rw [he]
        simp [List.append_assoc]
      · rw [hf]
        simp [idxRange, List.append_assoc]
      · intro d
        rw [List.foldl_append, List.foldl_append, foldl_stepDisk_exportBlock]
        have h1 : List.foldl stepDisk (d ++ [i])
            [Event.cumulativeDisplayed i
              (s.full_transcription_text ++ t ++ [' '])] = d ++ [i] := rfl
        rw [h1, hd]
        simp [idxRange, List.append_assoc]
      · intro j hj
        simp only [List.mem_append] at hj
        rcases hj with (hj | hj) | hj
        · simp [exportBlock] at hj
          omega
        · simp at hj
        · have := hcb j hj
          omega
      · intro j hj
        simp only [List.mem_append] at hj
        rcases hj with (hj | hj) | hj
        · simp [exportBlock] at hj
          omega
        · simp at hj
        · have := htb j hj
          omega

/-- By the end of a pipeline invocation every temporary chunk file has
been removed again, on the success path and on the error path alike
(lines 125-138). -/
lemma liveChunks_split (tr : Nat → Except Unit (List Char)) (T c : Nat) :
    liveChunks (split_audio_and_transcribe_local tr T c).2 = [] := by
  obtain ⟨Δ, m, he, hf, _, hd, _, _⟩ :=
    processChunks_spec tr (num_chunks T c) (num_chunks T c) 0 s0State
  have hpre : ∀ tail : List Event,
      List.foldl stepDisk []
        (((processChunks tr (num_chunks T c) 0 (num_chunks T c) s0State).1).events
          ++ tail)
        = List.foldl stepDisk (idxRange 0 m) tail := by
    intro tail
    rw [List.foldl_append, he, List.foldl_append]
    have h0 : List.foldl stepDisk ([] : List Nat) s0State.events = [] := rfl
    rw [h0, hd]
    rfl
  have hclean : List.foldl stepDisk (idxRange 0 m)
      ((idxRange 0 m).map Event.chunkRemoved) = [] := by
    have h := foldl_stepDisk_erase_self (idxRange 0 m) []
      (by simp) (idxRange_nodup 0 m)
    simpa using h
  simp only [split_audio_and_transcribe_local, liveChunks]
  split
  · dsimp only
    rw [List.append_assoc, hpre, List.foldl_append]
    have h2 : List.foldl stepDisk (idxRange 0 m)
        [Event.errorShown, Event.warningShown] = idxRange 0 m := rfl
    rw [h2, hf]
    simpa [s0State] using hclean
  · dsimp only
    rw [List.append_assoc, hpre, List.foldl_append]
    have h2 : List.foldl stepDisk (idxRange 0 m)
        [Event.progressCleared, Event.chunkStatusCleared] = idxRange 0 m := rfl
    rw [h2, hf]
    simpa [s0State] using hclean

/-- The return value of the loop is determined by the oracle outcomes
alone: the loop fails exactly when `collectTexts` does, and on success the
accumulated text is the concatenation of the collected fragment texts,
each followed by one space. -/
lemma processChunks_result (tr : Nat → Except Unit (List Char)) (n : Nat) :
    ∀ (rem i : Nat) (s : LoopState),
      (collectTexts tr i rem = none → (processChunks tr n i rem s).2 = true) ∧
      (∀ ts, collectTexts tr i rem = some ts →
        (processChunks tr n i rem s).2 = false ∧
        ((processChunks tr n i rem s).1).full_transcription_text
          = s.full_transcription_text ++ concatWithTrailingSpace ts) := by
  intro rem
  induction rem with
  | zero =>
    intro i s
    constructor
    · intro h
      rw [show collectTexts tr i 0 = some ([] : List (List Char)) from rfl] at h
      exact Option.noConfusion h
    · intro ts hts
      rw [show collectTexts tr i 0 = some ([] : List (List Char)) from rfl] at hts
      cases hts
      simp [processChunks_zero, concatWithTrailingSpace]
  | succ rem ih =>
    intro i s
    cases htr : tr i with
    | error e =>
      constructor
      · intro _
        rw [processChunks_error tr n i rem s e htr]
      · intro ts hts
        simp [collectTexts, htr] at hts
    | ok t =>
      rw [processChunks_ok tr n i rem s t htr]
      constructor
      · intro h
        simp only [collectTexts, htr] at h
        cases h2 : collectTexts tr (i + 1) rem with
        | none => exact (ih (i + 1) _).1 h2
        | some ts2 => rw [h2] at h; simp at h
      · intro ts hts
        simp only [collectTexts, htr] at hts
        cases h2 : collectTexts tr (i + 1) rem with
        | none => rw [h2] at hts; simp at hts
        | some ts2 =>
          rw [h2] at hts
          rw [show Option.map (t :: ·) (some ts2) = some (t :: ts2) from rfl] at hts
          cases hts
          obtain ⟨hsnd, hfull⟩ := (ih (i + 1) _).2 ts2 h2
          refine ⟨hsnd, ?_⟩
          rw [hfull]
          simp [concatWithTrailingSpace, List.append_assoc]

/-- The Python return value of `split_audio_and_transcribe_local` is a
function of the oracle outcomes alone: `None` when some chunk fails, and
the aggregation of the fragment texts when all succeed. -/
lemma split_result_eq (tr : Nat → Except Unit (List Char)) (T c : Nat) :
    (split_audio_and_transcribe_local tr T c).1
      = (collectTexts tr 0 (num_chunks T c)).map aggregate := by
  cases h : collectTexts tr 0 (num_chunks T c) with
  | none =>
    have h2 := (processChunks_result tr (num_chunks T c) (num_chunks T c) 0
      s0State).1 h
    simp [split_audio_and_transcribe_local, h2]
  | some ts =>
    obtain ⟨hsnd, hfull⟩ := (processChunks_result tr (num_chunks T c)
      (num_chunks T c) 0 s0State).2 ts h
    simp only [split_audio_and_transcribe_local, hsnd, Bool.false_eq_true,
      if_false, Option.map_some]
    have ha : aggregate ts = strip (concatWithTrailingSpace ts) := by
      unfold aggregate
      rw [foldl_append_space, List.nil_append]
    rw [show Option.map aggregate (some ts) = some (aggregate ts) from rfl,
      hfull, ha,
      show s0State.full_transcription_text = ([] : List Char) from rfl,
      List.nil_append]

/-- When the oracle succeeds on every chunk before `k` and fails at `k`
(with `k` within the remaining iterations), the loop stops at `k`: it
reports the exception, and every chunk-creation or transcription event it
appended concerns an index `≤ k`. -/
lemma processChunks_fail (tr : Nat → Except Unit (List Char)) (n : Nat) :
    ∀ (rem i : Nat) (s : LoopState) (k : Nat), i ≤ k → k < i + rem →
      tr k = Except.error () →
      (∀ j, i ≤ j → j < k → ∃ t, tr j = Except.ok t) →
      (processChunks tr n i rem s).2 = true ∧
      ∃ Δ : List Event, ((processChunks tr n i rem s).1).events = s.events ++ Δ ∧
        (∀ j, Event.chunkCreated j ∈ Δ → j ≤ k) ∧
        (∀ j, Event.transcribeCalled j ∈ Δ → j ≤ k) := by
  intro rem
  induction rem with
  | zero =>
    intro i s k h1 h2 _ _
    omega
  | succ rem ih =>
    intro i s k h1 h2 h3 h4
    by_cases hik : i = k
    · subst hik
      rw [processChunks_error tr n i rem s () h3]
      refine ⟨rfl, exportBlock i n, rfl, ?_, ?_⟩
      · intro j hj
        simp [exportBlock] at hj
        omega
      · intro j hj
        simp [exportBlock] at hj
        omega
    · have hik2 : i < k := lt_of_le_of_ne h1 hik
      obtain ⟨t, ht⟩ := h4 i (le_refl i) hik2
      rw [processChunks_ok tr n i rem s t ht]
      obtain ⟨hsnd, Δ, he, hc, htc⟩ := ih (i + 1)
        { full_transcription_text := s.full_transcription_text ++ t ++ [' '],
          temp_chunk_files := s.temp_chunk_files ++ [i],
          events := s.events ++ exportBlock i n ++
            [Event.cumulativeDisplayed i
              (s.full_transcription_text ++ t ++ [' '])] }
        k (by omega) (by omega) h3 (fun j hj1 hj2 => h4 j (by omega) hj2)
      refine ⟨hsnd, exportBlock i n ++
          [Event.cumulativeDisplayed i
            (s.full_transcription_text ++ t ++ [' '])] ++ Δ, ?_, ?_, ?_⟩
      · rw [he]
        simp [List.append_assoc]
      · intro j hj
        simp only [List.mem_append] at hj
        rcases hj with (hj | hj) | hj
        · simp [exportBlock] at hj
          omega
        · simp at hj
        · exact hc j hj
      · intro j hj
        simp only [List.mem_append] at hj
        rcases hj with (hj | hj) | hj
        · simp [exportBlock] at hj
          omega
        · simp at hj
        · exact htc j hj

/-- Whenever the loop has called the model on chunk `j`, the trace
contains, as one contiguous block, the export of chunk `j`, the
status/progress events for chunk `j`, and the call itself, in that order. -/
lemma processChunks_block (tr : Nat → Except Unit (List Char)) (n : Nat) :
    ∀ (rem i : Nat) (s : LoopState) (j : Nat),
      Event.transcribeCalled j ∈ ((processChunks tr n i rem s).1).events →
      Event.transcribeCalled j ∈ s.events ∨
      ∃ pre post, ((processChunks tr n i rem s).1).events
        = pre ++ exportBlock j n ++ post := by
  intro rem
  induction rem with
  | zero =>
    intro i s j hj
    rw [processChunks_zero] at hj
    exact Or.inl hj
  | succ rem ih =>
    intro i s j hj
    cases htr : tr i with
    | error e =>
      rw [processChunks_error tr n i rem s e htr] at hj ⊢
      simp only [List.mem_append] at hj
      rcases hj with hj | hj
      · exact Or.inl hj
      · have hji : j = i := by
          simp [exportBlock] at hj
          omega
        subst hji
        exact Or.inr ⟨s.events, [], by simp⟩
    | ok t =>
      rw [processChunks_ok tr n i rem s t htr] at hj ⊢
      rcases ih (i + 1) _ j hj with hj2 | ⟨pre, post, hdec⟩
      · simp only [List.mem_append] at hj2
        rcases hj2 with (hj2 | hj2) | hj2
        · exact Or.inl hj2
        · have hji : j = i := by
            simp [exportBlock] at hj2
            omega
          subst hji
          obtain ⟨Δ, m, he, _, _, _, _, _⟩ := processChunks_spec tr n rem (j + 1)
            { full_transcription_text := s.full_transcription_text ++ t ++ [' '],
              temp_chunk_files := s.temp_chunk_files ++ [j],
              events := s.events ++ exportBlock j n ++
                [Event.cumulativeDisplayed j
                  (s.full_transcription_text ++ t ++ [' '])] }
          refine Or.inr ⟨s.events,
            [Event.cumulativeDisplayed j
              (s.full_transcription_text ++ t ++ [' '])] ++ Δ, ?_⟩
          rw [he]
          simp [List.append_assoc]
        · simp at hj2
      · exact Or.inr ⟨pre, post, hdec⟩

/-- C2: the pipeline is fail-fast: a failing chunk aborts it, the partial
transcript is discarded in favour of `None`, the error is surfaced, and
every temporary chunk artifact created so far is still deleted. -/
theorem fail_fast (tr : Nat → Except Unit (List Char)) (T c k : Nat)
    (hk : k < num_chunks T c) (hfail : tr k = Except.error ())
    (hok : ∀ j, j < k → ∃ t, tr j = Except.ok t) :
    FailFastSpec tr T c k := by
  obtain ⟨hsnd, Δ, he, hcb, htb⟩ :=
    processChunks_fail tr (num_chunks T c) (num_chunks T c) 0 s0State k
      (Nat.zero_le k) (by omega) hfail (fun j _ hj => hok j hj)
  have hevs : (split_audio_and_transcribe_local tr T c).2
      = ((processChunks tr (num_chunks T c) 0 (num_chunks T c) s0State).1).events
        ++ [Event.errorShown, Event.warningShown]
        ++ ((processChunks tr (num_chunks T c) 0 (num_chunks T c)
              s0State).1).temp_chunk_files.map Event.chunkRemoved := by
    simp [split_audio_and_transcribe_local, hsnd]
  have hres : (split_audio_and_transcribe_local tr T c).1 = none := by
    simp [split_audio_and_transcribe_local, hsnd]
  refine ⟨hres, ?_, ?_, ?_, liveChunks_split tr T c⟩
  · rw [hevs]
    simp
  · intro j hj
    rw [hevs, he] at hj
    simp only [List.append_assoc, List.mem_append, List.mem_map] at hj
    rcases hj with hj | hj | hj | ⟨a, ha, hne⟩
    · simp [s0State] at hj
    · exact htb j hj
    · simp at hj
    · simp at hne
  · intro j hj
    rw [hevs, he] at hj
    simp only [List.append_assoc, List.mem_append, List.mem_map] at hj
    rcases hj with hj | hj | hj | ⟨a, ha, hne⟩
    · simp [s0State] at hj
    · exact hcb j hj
    · simp at hj
    · simp at hne

theorem fail_fast_witness : FailFastSpec trFailAt1 1500000 600000 1 :=
  fail_fast trFailAt1 1500000 600000 1 (by decide) rfl
    (fun j hj => by
      have h0 : j = 0 := by omega
      subst h0
      exact ⟨['a'], rfl⟩)

/-- C3 counterexample: in the run on a 25-minute input with all
transcriptions succeeding, chunk artifacts accumulate on disk (the
cleanup loop runs only at the end of the pipeline, lines 134-138), so
"at most one chunk artifact exists at every point" is false. -/
theorem chunk_accumulation_counterexample :
    ¬ chunkArtifactsNeverAccumulate
      (split_audio_and_transcribe_local trAllOk 1500000 600000).2 := by
  intro h
  exact absurd (h 9 (by decide)) (by decide)

/-- C3 amended: every per-segment chunk artifact is deleted by the end of
the pipeline invocation (none outlives it), though they accumulate during
the run rather than being deleted immediately after each segment. -/
theorem chunk_cleanup_at_end (tr : Nat → Except Unit (List Char)) (T c : Nat) :
    liveChunks (split_audio_and_transcribe_local tr T c).2 = [] :=
  liveChunks_split tr T c

/-- C8 counterexample: in the run on a short input with one segment, no
progress event for segment 0 follows the transcription call for
segment 0 — the progress events of lines 100-103 are emitted before the
call at line 106, not after it. -/
theorem progress_after_transcription_counterexample :
    progressFollowsTranscriptionB
      (split_audio_and_transcribe_local trAllOk 1 600000).2 = false := by
  decide

/-- C8 amended: progress events for a segment precede (not follow) its
transcription call, and the produced transcript does not depend on the
emitted events. -/
theorem progress_precedes_transcription (tr : Nat → Except Unit (List Char))
    (T c : Nat) : ProgressPrecedesSpec tr T c := by
  refine ⟨?_, split_result_eq tr T c⟩
  intro i hi
  have hevs : ∃ tail : List Event,
      (split_audio_and_transcribe_local tr T c).2
        = ((processChunks tr (num_chunks T c) 0 (num_chunks T c)
            s0State).1).events ++ tail ∧
      (∀ j, Event.transcribeCalled j ∉ tail) := by
    simp only [split_audio_and_transcribe_local]
    split
    · dsimp only
      refine ⟨[Event.errorShown, Event.warningShown]
        ++ ((processChunks tr (num_chunks T c) 0 (num_chunks T c)
            s0State).1).temp_chunk_files.map Event.chunkRemoved,
        by rw [List.append_assoc], ?_⟩
      intro j hj
      simp only [List.mem_append, List.mem_map] at hj
      rcases hj with hj | ⟨a, _, hne⟩
      · simp at hj
      · simp at hne
    · dsimp only
      refine ⟨[Event.progressCleared, Event.chunkStatusCleared]
        ++ ((processChunks tr (num_chunks T c) 0 (num_chunks T c)
            s0State).1).temp_chunk_files.map Event.chunkRemoved,
        by rw [List.append_assoc], ?_⟩
      intro j hj
      simp only [List.mem_append, List.mem_map] at hj
      rcases hj with hj | ⟨a, _, hne⟩
      · simp at hj
      · simp at hne
  obtain ⟨tail, htail, hnot⟩ := hevs
  rw [htail] at hi
  rcases List.mem_append.mp hi with hi2 | hi2
  · rcases processChunks_block tr (num_chunks T c) (num_chunks T c) 0
      s0State i hi2 with h0 | ⟨pre, post, hdec⟩
    · simp [s0State] at h0
    · refine ⟨pre, post ++ tail, ?_⟩
      rw [htail, hdec]
      simp [List.append_assoc]
  · exact absurd hi2 (hnot i)

/-- C7: the primary uploaded-file temporary artifact is removed by the
handler's finally block (lines 170-173) as its last action, on every exit
path: pipeline returned a transcript, returned `None`, or raised. -/
theorem primary_file_always_removed (b : PipelineBehavior) :
    HEvent.primaryRemoved ∈ transcribe_button_handler b ∧
    ∃ pre : List HEvent,
      transcribe_button_handler b = pre ++ [HEvent.primaryRemoved] ∧
      HEvent.primaryRemoved ∉ pre := by
  cases b with
  | returns r pipeEvents =>
    cases r with
    | none =>
      refine ⟨by simp [transcribe_button_handler],
        [HEvent.primaryCreated, HEvent.infoShown]
          ++ pipeEvents.map HEvent.pipelineEvent, ?_, ?_⟩
      · simp [transcribe_button_handler]
      · intro hmem
        simp only [List.mem_append, List.mem_map] at hmem
        rcases hmem with hmem | ⟨a, _, hne⟩
        · simp at hmem
        · simp at hne
    | some t =>
      by_cases ht : t.isEmpty
      · refine ⟨by simp [transcribe_button_handler, ht],
          [HEvent.primaryCreated, HEvent.infoShown]
            ++ pipeEvents.map HEvent.pipelineEvent, ?_, ?_⟩
        · simp [transcribe_button_handler, ht]
        · intro hmem
          simp only [List.mem_append, List.mem_map] at hmem
          rcases hmem with hmem | ⟨a, _, hne⟩
          · simp at hmem
          · simp at hne
      · refine ⟨by simp [transcribe_button_handler, ht],
          [HEvent.primaryCreated, HEvent.infoShown]
            ++ pipeEvents.map HEvent.pipelineEvent
            ++ [HEvent.successShown, HEvent.finalTranscriptShown t], ?_, ?_⟩
        · simp [transcribe_button_handler, ht, List.append_assoc]
        · intro hmem
          simp only [List.append_assoc, List.mem_append, List.mem_map] at hmem
          rcases hmem with hmem | ⟨a, _, hne⟩ | hmem
          · simp at hmem
          · simp at hne
          · simp at hmem
  | raises pipeEvents =>
    refine ⟨by simp [transcribe_button_handler],
      [HEvent.primaryCreated, HEvent.infoShown]
        ++ pipeEvents.map HEvent.pipelineEvent
        ++ [HEvent.errorShown, HEvent.warningShown], ?_, ?_⟩
    · simp [transcribe_button_handler, List.append_assoc]
    · intro hmem
      simp only [List.append_assoc, List.mem_append, List.mem_map] at hmem
      rcases hmem with hmem | ⟨a, _, hne⟩ | hmem
      · simp at hmem
      · simp at hne
      · simp at hmem

/-- C10: when the pipeline succeeds but with an empty transcript, the
handler's truthiness test at line 158 behaves exactly as for the `None`
returned on failure: the success notification and the final transcript
display are both skipped; and an all-whitespace fragment list indeed
aggregates to the empty string. -/
theorem empty_transcript_like_failure (pipeEvents : List Event) :
    transcribe_button_handler (PipelineBehavior.returns (some []) pipeEvents)
      = transcribe_button_handler (PipelineBehavior.returns none pipeEvents) ∧
    HEvent.successShown ∉
      transcribe_button_handler
        (PipelineBehavior.returns (some []) pipeEvents) ∧
    (∀ t, HEvent.finalTranscriptShown t ∉
      transcribe_button_handler
        (PipelineBehavior.returns (some []) pipeEvents)) ∧
    aggregate [[' ', ' '], []] = [] := by
  refine ⟨rfl, ?_, ?_, by decide⟩
  · intro hmem
    simp [transcribe_button_handler] at hmem
  · intro t hmem
    simp [transcribe_button_handler] at hmem

